import Mathlib

/-!
# Verification of the Go performance-test server (`GoLangTEst/main.go`)

The file embeds `GetNthPrime`, `heavyHandler` and `ioHandler` of `main.go` in Lean and
proves the properties stated for them.

Modelling conventions.

* Go `int` values are integers of the machine: `Int` values between `minInt sz` and
  `maxInt sz`, where `sz` is the size of `int` on the platform (32 or 64 bits), and `count++`,
  `num++` wrap around (`wrap`).  The loop variable `i` of the inner loop stays below the
  candidate and needs no wrapping.
* `int(math.Sqrt(float64(num)))` is the exact integer square root `Int.sqrt`; see `intSqrt`.
* The Go remainder `a % b` is the truncated remainder and panics on a zero divisor; a panic is
  the value `none`.
* A loop is a recursive function; its termination is proved where it is defined, which is why
  the lemmas on the loop bodies precede the loops.
* The reference loop of the specification runs on the mathematical integers.
* The effects of a handler (sleeping, setting a header, encoding the body) are recorded as a
  trace, in program order.
-/

namespace GoLangTest

/-! ## `GetNthPrime`: the loop bodies -/

/-- Go's `a % b` on `int`: a run-time panic (`none`) when `b = 0`, otherwise the remainder of the
division truncated towards zero. -/
def goRem (a b : Int) : Option Int :=
  if b = 0 then none else some (Int.tmod a b)

/-- The expression `int(math.Sqrt(float64(num)))` of line 17, as the exact integer square root.
For large candidates the floating-point value can be one above the exact root; every bound
between the exact root and `num - 1` gives the same `isPrime` (`trialLoop_bound_irrelevant`),
and the bounds on the number of iterations below are stated for an arbitrary bound.  For a
negative candidate, which only a wrapped `num++` produces, `math.Sqrt` is NaN and its
conversion depends on the platform: it is the least `int` on amd64 and 386 and zero on arm and
arm64, in each case a bound below 2 under which the inner loop is not entered, like the value
zero taken here. -/
def intSqrt (num : Int) : Int := Int.sqrt num

/-- The inner loop of lines 18-23,
`for i := 2; i <= sqrtNum; i++ { if num%i == 0 { isPrime = false; break } }`,
entered with loop variable `i` and `isPrime = true`.  The result is the final value of `isPrime`,
or `none` when `num % i` panics. -/
def trialLoop (num sqrtNum i : Int) : Option Bool :=
  if i ≤ sqrtNum then
    match goRem num i with
    | none => none
    | some r => if r = 0 then some false else trialLoop num sqrtNum (i + 1)
  else some true
termination_by (sqrtNum + 1 - i).toNat
decreasing_by omega

/-- A run of the inner loop that is cut off after `fuel` executions of its body; `none` when
the loop has not returned within that budget (or has panicked). -/
def trialLoopFuel : Nat → Int → Int → Int → Option Bool
  | 0, _, sqrtNum, i => if i ≤ sqrtNum then none else some true
  | fuel + 1, num, sqrtNum, i =>
    if i ≤ sqrtNum then
      match goRem num i with
      | none => none
      | some r => if r = 0 then some false else trialLoopFuel fuel num sqrtNum (i + 1)
    else some true

/-- The two variables that live across iterations of the outer loop. -/
structure LoopState where
  count : Int
  num : Int
deriving DecidableEq, Repr

/-- The size of Go's `int`, which is 32 or 64 bits wide depending on the platform. -/
inductive IntSize where
  | bits32
  | bits64
deriving DecidableEq, Repr

/-- The number of bits of an `int`. -/
def IntSize.bits : IntSize → Nat
  | IntSize.bits32 => 32
  | IntSize.bits64 => 64

/-- The largest `int`. -/
def maxInt (sz : IntSize) : Int := 2 ^ (sz.bits - 1) - 1

/-- The least `int`. -/
def minInt (sz : IntSize) : Int := -2 ^ (sz.bits - 1)

/-- The `int` that an arithmetic operation with exact result `x` produces: Go integer
arithmetic wraps around silently in two's complement. -/
def wrap (sz : IntSize) (x : Int) : Int :=
  (x + 2 ^ (sz.bits - 1)) % 2 ^ sz.bits - 2 ^ (sz.bits - 1)

/-- One execution of the body of the outer loop (lines 16-29); `count++` and `num++` are
machine additions. -/
def loopBody (sz : IntSize) (n : Int) (s : LoopState) : Option LoopState :=
  match trialLoop s.num (intSqrt s.num) 2 with
  | none => none
  | some isPrime =>
    let count := if isPrime then wrap sz (s.count + 1) else s.count
    let num := if count < n then wrap sz (s.num + 1) else s.num
    some ⟨count, num⟩

/-- The variant of the outer loop on machine integers.  The candidate 2 is counted every time
the candidate runs through the word, so the variant combines the number of counts still to be
made with the distance of the candidate to 2, going upwards and around. -/
def loopVariant (sz : IntSize) (n : Int) (s : LoopState) : Nat :=
  if s.count < n then
    (if minInt sz ≤ s.count then (n - s.count).toNat else (n - minInt sz).toNat + 2)
        * (2 ^ sz.bits + 1)
      + (if minInt sz ≤ s.num ∧ s.num ≤ maxInt sz
          then ((2 - s.num) % 2 ^ sz.bits).toNat else 2 ^ sz.bits)
      + 1
  else 0

/-! ### The reference loop of the specification

The specification describes the search with a candidate that is advanced after every test, the
last advance being discarded.  `specBody`, `alwaysIncrementLoop` and `specNthPrime` follow those
words, on the mathematical integers; they are compared with `GetNthPrime` below. -/

/-- One round of the reference loop: test the candidate, count it when prime, and advance the
candidate by one in every case. -/
def specBody (s : LoopState) : Option LoopState :=
  match trialLoop s.num (intSqrt s.num) 2 with
  | none => none
  | some isPrime => some ⟨if isPrime then s.count + 1 else s.count, s.num + 1⟩

/-! ### Termination of the loops -/

/-- A non-zero divisor gives a defined remainder. -/
theorem goRem_of_ne_zero (a b : Int) (hb : b ≠ 0) : goRem a b = some (Int.tmod a b) := by
  simp [goRem, hb]

/-- From any positive start `i` the inner loop returns, and `isPrime` stays `true` exactly when
no `j` with `i ≤ j ≤ sqrtNum` divides `num`. -/
theorem trialLoop_spec (num sqrtNum : Int) :
    ∀ (k : Nat) (i : Int), 0 < i → (sqrtNum + 1 - i).toNat = k →
      ∃ b, trialLoop num sqrtNum i = some b ∧
        (b = true ↔ ∀ j : Int, i ≤ j → j ≤ sqrtNum → ¬ j ∣ num) := by
  intro k
  induction k with
  | zero =>
    intro i _ hk
    have hlt : ¬ i ≤ sqrtNum := by omega
    refine ⟨true, ?_, ?_⟩
    · rw [trialLoop]; simp [hlt]
    · simp only [true_iff]
      intro j h1 h2
      omega
  | succ k ih =>
    intro i hi hk
    have hle : i ≤ sqrtNum := by omega
    have hne : i ≠ 0 := by omega
    by_cases hd : Int.tmod num i = 0
    · refine ⟨false, ?_, ?_⟩
      · rw [trialLoop]; simp [hle, goRem_of_ne_zero _ _ hne, hd]
      · simp only [Bool.false_eq_true, false_iff, not_forall, not_not]
        exact ⟨i, le_refl _, hle, Int.dvd_of_tmod_eq_zero hd⟩
    · obtain ⟨b, hb, hspec⟩ := ih (i + 1) (by omega) (by omega)
      refine ⟨b, ?_, ?_⟩
      · rw [trialLoop]; simp [hle, goRem_of_ne_zero _ _ hne, hd, hb]
      · rw [hspec]
        constructor
        · intro h j h1 h2
          rcases eq_or_lt_of_le h1 with he | hlt
          · subst he
            intro hdvd
            exact hd (Int.tmod_eq_zero_of_dvd hdvd)
          · exact h j (by omega) h2
        · intro h j h1 h2
          exact h j (by omega) h2

/-- For a candidate `num ≥ 2` the inner loop started at `i = 2` returns, and leaves `isPrime`
true exactly when `num` is a prime number. -/
theorem trialLoop_prime (num : Int) (h2 : 2 ≤ num) :
    ∃ b, trialLoop num (intSqrt num) 2 = some b ∧ (b = true ↔ Nat.Prime num.toNat) := by
  obtain ⟨b, hb, hspec⟩ :=
    trialLoop_spec num (intSqrt num) (intSqrt num + 1 - 2).toNat 2 (by norm_num) rfl
  refine ⟨b, hb, ?_⟩
  rw [hspec, Nat.prime_def_le_sqrt]
  have hnum : ((num.toNat : Nat) : Int) = num := Int.toNat_of_nonneg (by omega)
  have hsq : intSqrt num = ((Nat.sqrt num.toNat : Nat) : Int) := rfl
  constructor
  · intro h
    refine ⟨by omega, ?_⟩
    intro m hm1 hm2 hdvd
    refine h (m : Int) (by exact_mod_cast hm1) (by rw [hsq]; exact_mod_cast hm2) ?_
    rw [← hnum]
    exact_mod_cast hdvd
  · rintro ⟨_, h⟩ j hj1 hj2 hdvd
    have hj0 : 0 ≤ j := by omega
    have hjn : ((j.toNat : Nat) : Int) = j := Int.toNat_of_nonneg hj0
    refine h j.toNat (by omega) ?_ ?_
    · rw [hsq] at hj2
      omega
    · rw [← hjn, ← hnum] at hdvd
      exact_mod_cast hdvd

/-- The candidate 2 passes the trial division. -/
theorem trialLoop_two : trialLoop 2 (intSqrt 2) 2 = some true := by
  obtain ⟨b, hb, hspec⟩ := trialLoop_prime 2 (le_refl _)
  have : b = true := hspec.mpr Nat.prime_two
  rw [hb, this]

/-- Every execution of the body of the outer loop under the guard decreases the variant, for a
bound `n` that is an `int`. -/
theorem loopBody_variant (sz : IntSize) (n : Int) (hn : n ≤ maxInt sz) (s t : LoopState)
    (hg : s.count < n) (hb : loopBody sz n s = some t) :
    loopVariant sz n t < loopVariant sz n s := by
  unfold loopBody at hb
  cases hT : trialLoop s.num (intSqrt s.num) 2 with
  | none => rw [hT] at hb; simp at hb
  | some b =>
    rw [hT] at hb
    simp only [Option.some.injEq] at hb
    subst hb
    have h2 : b = false → s.num ≠ 2 := by
      intro hf h2
      rw [h2, trialLoop_two] at hT
      simp only [Option.some.injEq] at hT
      rw [hf] at hT
      exact Bool.noConfusion hT
    cases sz <;> cases b <;>
      simp only [loopVariant, maxInt, minInt, wrap, IntSize.bits, Bool.false_eq_true, if_false,
        if_true, ne_eq, forall_const, not_false_eq_true] at h2 hn ⊢ <;>
      norm_num at h2 hn ⊢ <;>
      split_ifs <;> omega

/-- The variant of the reference loop, which runs on the mathematical integers: the distance
from the candidate to the prime that is `n - count` primes further, which exists because there
are infinitely many primes.  It
decreases along every step `s ↦ t` taken under the guard `count < n` that advances the count by
at most one, advances it on a prime candidate, and advances the candidate by one whenever the
new count is still below `n`. -/
theorem variant_decreases (n : Int) (s t : LoopState) (hg : s.count < n)
    (hc : t.count = s.count ∨ t.count = s.count + 1)
    (hp : Nat.Prime s.num.toNat → t.count = s.count + 1)
    (hn : t.count < n → t.num = s.num + 1) :
    (if t.count < n then
        (((Nat.nth Nat.Prime
          (Nat.count Nat.Prime t.num.toNat + (n - t.count).toNat) : Nat) : Int) - t.num).toNat + 1
      else 0) <
    (if s.count < n then
        (((Nat.nth Nat.Prime
          (Nat.count Nat.Prime s.num.toNat + (n - s.count).toNat) : Nat) : Int) - s.num).toNat + 1
      else 0) := by
  have hinf := Nat.infinite_setOf_prime
  rw [if_pos hg]
  by_cases hg' : t.count < n
  · rw [if_pos hg']
    have hn' := hn hg'
    -- the target prime of the old state lies strictly above the old candidate
    have h1 : s.num.toNat ≤ Nat.nth Nat.Prime (Nat.count Nat.Prime s.num.toNat) :=
      Nat.le_nth_count hinf _
    have h2 : Nat.nth Nat.Prime (Nat.count Nat.Prime s.num.toNat) <
        Nat.nth Nat.Prime (Nat.count Nat.Prime s.num.toNat + (n - s.count).toNat) :=
      (Nat.nth_lt_nth hinf).mpr (by omega)
    -- the target prime does not move up
    have h3 : Nat.nth Nat.Prime (Nat.count Nat.Prime t.num.toNat + (n - t.count).toNat) ≤
        Nat.nth Nat.Prime (Nat.count Nat.Prime s.num.toNat + (n - s.count).toNat) := by
      apply (Nat.nth_strictMono hinf).monotone
      by_cases hneg : s.num < 0
      · have e1 : t.num.toNat = s.num.toNat := by omega
        rw [e1]
        omega
      · have e1 : t.num.toNat = s.num.toNat + 1 := by omega
        rw [e1, Nat.count_succ]
        by_cases hpr : Nat.Prime s.num.toNat
        · have := hp hpr
          rw [if_pos hpr]
          omega
        · rw [if_neg hpr]
          omega
    omega
  · rw [if_neg hg']
    omega

/-- Every round of the reference loop under the guard decreases the variant. -/
theorem specBody_variant (n : Int) (s t : LoopState) (hg : s.count < n)
    (hb : specBody s = some t) :
    (if t.count < n then
        (((Nat.nth Nat.Prime
          (Nat.count Nat.Prime t.num.toNat + (n - t.count).toNat) : Nat) : Int) - t.num).toNat + 1
      else 0) <
    (if s.count < n then
        (((Nat.nth Nat.Prime
          (Nat.count Nat.Prime s.num.toNat + (n - s.count).toNat) : Nat) : Int) - s.num).toNat + 1
      else 0) := by
  unfold specBody at hb
  cases hT : trialLoop s.num (intSqrt s.num) 2 with
  | none => rw [hT] at hb; simp at hb
  | some b =>
    rw [hT] at hb
    simp only [Option.some.injEq] at hb
    subst hb
    refine variant_decreases n s _ hg ?_ ?_ (fun _ => rfl)
    · cases b <;> simp
    · intro hp
      have h2 : 2 ≤ s.num := by
        have := hp.two_le
        omega
      obtain ⟨b', hb', hspec⟩ := trialLoop_prime s.num h2
      rw [hT] at hb'
      simp only [Option.some.injEq] at hb'
      subst hb'
      simp [hspec.mpr hp]

/-! ## `GetNthPrime`: the loops -/

/-- The outer loop of lines 15-30, `for count < n { ... }`, followed by `return num`, for a
bound `n` that is an `int`.  It terminates from every state: the variant is `loopVariant`, and
the equation `hb` of the executed body feeds `loopBody_variant`. -/
def outerLoop (sz : IntSize) (n : Int) (hn : n ≤ maxInt sz) (s : LoopState) : Option Int :=
  if s.count < n then
    match hb : loopBody sz n s with
    | none => none
    | some t =>
      have _ := hb
      outerLoop sz n hn t
  else some s.num
termination_by loopVariant sz n s
decreasing_by exact loopBody_variant sz n hn s t (by assumption) hb

/-- The function `GetNthPrime` of `main.go`, lines 12-32, on a platform with `int` of size `sz`:
`count := 0`, `num := 2`, the outer loop, `return num`.  The value `none` stands for a run-time
panic; it is also the value on an `n` above the largest `int`, which is not a value of the
parameter type. -/
def GetNthPrime (sz : IntSize) (n : Int) : Option Int :=
  if hn : n ≤ maxInt sz then outerLoop sz n hn ⟨0, 2⟩ else none

/-- A run of the outer loop that is cut off after `fuel` executions of its body; `none` when
the loop has not returned within that budget (or has panicked). -/
def outerLoopFuel (sz : IntSize) : Nat → Int → LoopState → Option Int
  | 0, n, s => if s.count < n then none else some s.num
  | fuel + 1, n, s =>
    if s.count < n then
      match loopBody sz n s with
      | none => none
      | some t => outerLoopFuel sz fuel n t
    else some s.num

/-- A run of `GetNthPrime` that is cut off after `fuel` iterations of the outer loop. -/
def GetNthPrimeFuel (sz : IntSize) (fuel : Nat) (n : Int) : Option Int :=
  outerLoopFuel sz fuel n ⟨0, 2⟩

/-- The state of the outer loop after `k` executions of its body, or at its exit when the guard
fails earlier. -/
def stateAfter (sz : IntSize) : Nat → Int → LoopState → Option LoopState
  | 0, _, s => some s
  | k + 1, n, s =>
    if s.count < n then
      match loopBody sz n s with
      | none => none
      | some t => stateAfter sz k n t
    else some s

/-- The reference loop: rounds are run until the found-count reaches `n`; the result is the
candidate as the loop leaves it, the final advance included. -/
def alwaysIncrementLoop (n : Int) (s : LoopState) : Option Int :=
  if s.count < n then
    match hb : specBody s with
    | none => none
    | some t =>
      have _ := hb
      alwaysIncrementLoop n t
  else some s.num
termination_by
  (if s.count < n then
      (((Nat.nth Nat.Prime
        (Nat.count Nat.Prime s.num.toNat + (n - s.count).toNat) : Nat) : Int) - s.num).toNat + 1
    else 0)
decreasing_by exact specBody_variant n s t (by assumption) hb

/-- The reference result: start from candidate 2 and found-count 0, run the reference loop, and
discard the final advance, which gives back the candidate that achieved the count. -/
def specNthPrime (n : Int) : Option Int :=
  match alwaysIncrementLoop n ⟨0, 2⟩ with
  | none => none
  | some num => some (num - 1)

/-! ## The HTTP handlers -/

/-- What a handler can read of the incoming `*http.Request`. -/
structure Request where
  method : String
  path : String
  header : List (String × String)
  body : String
deriving DecidableEq, Repr

/-- The values the handlers put in their response maps.  `float64 v` is the `float64` obtained
by converting the integer `v`; the conversion is exact for the millisecond counts it is used on,
whose absolute value is below `2 ^ 53`. -/
inductive Value where
  | str (s : String)
  | int (v : Int)
  | float64 (v : Int)
deriving DecidableEq, Repr

/-- The observable actions of a handler, recorded in program order: `time.Sleep(d)` with `d` in
nanoseconds, `w.Header().Set(key, value)`, and `json.NewEncoder(w).Encode(response)` with the
entries of the response map. -/
inductive Effect where
  | sleep (nanos : Int)
  | setHeader (key value : String)
  | encode (response : List (String × Value))
deriving DecidableEq, Repr

/-- The constant `time.Millisecond`, in nanoseconds. -/
def Millisecond : Int := 1000000

/-- The method `Duration.Milliseconds`: the duration (nanoseconds) as an integer millisecond
count, by truncating integer division. -/
def Milliseconds (d : Int) : Int := Int.tdiv d 1000000

/-- The call `time.Since(start)` when the clock reads `now`; both are readings of the monotonic
clock in nanoseconds. -/
def Since (start now : Int) : Int := now - start

/-- The call `fmt.Sprintf("Found %dth prime number", nth)`. -/
def sprintfFound (nth : Int) : String :=
  "Found " ++ toString nth ++ "th prime number"

/-- The handler `heavyHandler` of lines 34-51.  `start` is the clock reading of `time.Now()` and
`now` the reading taken by `time.Since(start)`.  The result is the trace of effects, or `none`
when `GetNthPrime` panics. -/
def heavyHandler (sz : IntSize) (_ : Request) (start now : Int) : Option (List Effect) :=
  let nth : Int := 20000
  match GetNthPrime sz nth with
  | none => none
  | some prime =>
    let duration := Since start now
    let response := [
      ("Message", Value.str (sprintfFound nth)),
      ("Result", Value.int prime),
      ("DurationMs", Value.float64 (Milliseconds duration)),
      ("Platform", Value.str "Go")]
    some [Effect.setHeader "Content-Type" "application/json", Effect.encode response]

/-- The handler `ioHandler` of lines 53-64, as its trace of effects. -/
def ioHandler (_ : Request) : List Effect :=
  let response := [
    ("Message", Value.str "I/O Operation Complete"),
    ("Platform", Value.str "Go")]
  [Effect.sleep (100 * Millisecond),
   Effect.setHeader "Content-Type" "application/json",
   Effect.encode response]

/-! ## Counting primes by greatest common divisors

These functions are not part of `main.go`.  They compute the number of primes below a bound
with few arithmetic operations, and serve to evaluate `GetNthPrime 20000`. -/

/-- The indicator of coprimality: `1` when `gcd m K = 1`, and `0` when `gcd m K ≥ 2`. -/
def coprimeInd (K m : Nat) : Nat := Nat.sub 1 (Nat.sub (Nat.gcd m K) 1)

/-- Number of `m` in `[lo, lo + len)` that are coprime to `K`. -/
def cntLin (K lo : Nat) : Nat → Nat
  | 0 => 0
  | len + 1 => Nat.add (cntLin K lo len) (coprimeInd K (Nat.add lo len))

/-- The same count over the block `[b, b + 30)` for `b` a multiple of 30, looking only at the
eight residues coprime to 30. -/
def blk30 (K b : Nat) : Nat :=
  Nat.add (coprimeInd K (Nat.add b 1)) (Nat.add (coprimeInd K (Nat.add b 7))
  (Nat.add (coprimeInd K (Nat.add b 11)) (Nat.add (coprimeInd K (Nat.add b 13))
  (Nat.add (coprimeInd K (Nat.add b 17)) (Nat.add (coprimeInd K (Nat.add b 19))
  (Nat.add (coprimeInd K (Nat.add b 23)) (coprimeInd K (Nat.add b 29))))))))

/-- The count over `2 ^ d` consecutive blocks of 30 starting at `b`, by halving. -/
def cntBlk (K : Nat) : Nat → Nat → Nat
  | 0, b => blk30 K b
  | d + 1, b => Nat.add (cntBlk K d b) (cntBlk K d (Nat.add b (Nat.mul 30 (Nat.pow 2 d))))

/-- The count over `nb < 2 ^ d` consecutive blocks of 30 starting at `b`, following the binary
digits of `nb`. -/
def cntBits (K : Nat) : Nat → Nat → Nat → Nat
  | 0, _, _ => 0
  | d + 1, b, nb =>
    if Nat.pow 2 d ≤ nb then
      Nat.add (cntBlk K d b) (cntBits K d (Nat.add b (Nat.mul 30 (Nat.pow 2 d))) (Nat.sub nb (Nat.pow 2 d)))
    else cntBits K d b nb

/-! # Theorems -/

/-! ### Machine integers -/

/-- An `int` holds at least 32 bits. -/
theorem maxInt_ge (sz : IntSize) : 2147483647 ≤ maxInt sz := by
  cases sz <;> simp only [maxInt, IntSize.bits] <;> norm_num

/-- The least `int` is at most `-2 ^ 31`. -/
theorem minInt_le (sz : IntSize) : minInt sz ≤ -2147483648 := by
  cases sz <;> simp only [minInt, IntSize.bits] <;> norm_num

/-- An exact result that is an `int` is not changed by wrapping. -/
theorem wrap_eq_self (sz : IntSize) (x : Int) (h1 : minInt sz ≤ x) (h2 : x ≤ maxInt sz) :
    wrap sz x = x := by
  cases sz <;> simp only [wrap, maxInt, minInt, IntSize.bits] at h1 h2 ⊢ <;>
    norm_num at h1 h2 ⊢ <;> omega

/-- A wrapped result is an `int`. -/
theorem wrap_range (sz : IntSize) (x : Int) : minInt sz ≤ wrap sz x ∧ wrap sz x ≤ maxInt sz := by
  cases sz <;> simp only [wrap, maxInt, minInt, IntSize.bits] <;> norm_num <;> omega

/-- Incrementing a non-negative `int` below the largest one is exact. -/
theorem wrap_succ (sz : IntSize) (x : Int) (h0 : 0 ≤ x) (h1 : x + 1 ≤ maxInt sz) :
    wrap sz (x + 1) = x + 1 := by
  have := minInt_le sz
  exact wrap_eq_self sz (x + 1) (by omega) h1

/-! ### The outer loop -/

/-- The body of the outer loop never panics, leaves the count unchanged or incremented, and
leaves the candidate unchanged or incremented. -/
theorem loopBody_returns (sz : IntSize) (n : Int) (s : LoopState) :
    ∃ t, loopBody sz n s = some t ∧
      (t.count = s.count ∨ t.count = wrap sz (s.count + 1)) ∧
      (t.num = s.num ∨ t.num = wrap sz (s.num + 1)) := by
  obtain ⟨b, hb, _⟩ := trialLoop_spec s.num (intSqrt s.num) _ 2 (by norm_num) rfl
  unfold loopBody
  rw [hb]
  refine ⟨_, rfl, ?_, ?_⟩
  · cases b <;> simp
  · simp only
    split_ifs <;> simp

/-- The body of the outer loop on a candidate `num ≥ 2`: the count is incremented exactly on a
prime, the candidate is incremented unless the count has reached `n`. -/
theorem loopBody_eq (sz : IntSize) (n : Int) (s : LoopState) (h2 : 2 ≤ s.num) :
    loopBody sz n s =
      some ⟨if Nat.Prime s.num.toNat then wrap sz (s.count + 1) else s.count,
            if (if Nat.Prime s.num.toNat then wrap sz (s.count + 1) else s.count) < n
              then wrap sz (s.num + 1) else s.num⟩ := by
  obtain ⟨b, hb, hspec⟩ := trialLoop_prime s.num h2
  unfold loopBody
  rw [hb]
  by_cases hp : Nat.Prime s.num.toNat
  · have : b = true := hspec.mpr hp
    subst this
    simp [hp]
  · have : b = false := by
      cases b
      · rfl
      · exact absurd (hspec.mp rfl) hp
    subst this
    simp [hp]

/-- The loop returns `num` when the guard `count < n` fails. -/
theorem outerLoop_exit (sz : IntSize) (n : Int) (hn : n ≤ maxInt sz) (s : LoopState)
    (hg : ¬ s.count < n) : outerLoop sz n hn s = some s.num := by
  rw [outerLoop, if_neg hg]

/-- Under the guard the loop continues from the state left by its body. -/
theorem outerLoop_step (sz : IntSize) (n : Int) (hn : n ≤ maxInt sz) (s t : LoopState)
    (hg : s.count < n) (hb : loopBody sz n s = some t) :
    outerLoop sz n hn s = outerLoop sz n hn t := by
  rw [outerLoop, if_pos hg]
  split
  · rename_i h
    rw [hb] at h
    simp at h
  · rename_i u h
    rw [hb] at h
    simp only [Option.some.injEq] at h
    subst h
    rfl

/-- Loop invariant of the search, when the searched prime is an `int`: from a candidate
`num ≥ 2` that has `count` primes below it, `count < n`, the loop returns the prime with exactly
`n - 1` primes below it. -/
theorem outerLoop_of_invariant (sz : IntSize) (n : Int) (hn : n ≤ maxInt sz)
    (hfit : ((Nat.nth Nat.Prime (n.toNat - 1) : Nat) : Int) ≤ maxInt sz) :
    ∀ (d : Nat) (s : LoopState), 2 ≤ s.num → s.count = Nat.count Nat.Prime s.num.toNat →
      s.count < n → Nat.nth Nat.Prime (n.toNat - 1) - s.num.toNat = d →
      outerLoop sz n hn s = some ((Nat.nth Nat.Prime (n.toNat - 1) : Nat) : Int) := by
  have hinf := Nat.infinite_setOf_prime
  intro d
  induction d with
  | zero =>
    intro s h2 hc hg hd
    have hle : s.num.toNat ≤ Nat.nth Nat.Prime (n.toNat - 1) := by
      have hcount : Nat.count Nat.Prime s.num.toNat ≤ n.toNat - 1 := by omega
      exact (Nat.count_le_iff_le_nth hinf).mp hcount
    have heq : s.num.toNat = Nat.nth Nat.Prime (n.toNat - 1) := by omega
    have hpr : Nat.Prime s.num.toNat := heq ▸ Nat.prime_nth_prime _
    have hcnt : Nat.count Nat.Prime s.num.toNat = n.toNat - 1 := by
      rw [heq]
      exact Nat.count_nth_of_infinite hinf _
    have hwc : wrap sz (s.count + 1) = s.count + 1 := wrap_succ sz _ (by omega) (by omega)
    have hb := loopBody_eq sz n s h2
    rw [if_pos hpr, hwc, if_neg (by omega)] at hb
    rw [outerLoop_step sz n hn s _ hg hb, outerLoop_exit sz n hn _ (by simp only; omega)]
    simp only [Option.some.injEq]
    omega
  | succ d ih =>
    intro s h2 hc hg hd
    have hlt : s.num.toNat < Nat.nth Nat.Prime (n.toNat - 1) := by omega
    have hwc : wrap sz (s.count + 1) = s.count + 1 := wrap_succ sz _ (by omega) (by omega)
    have hwn : wrap sz (s.num + 1) = s.num + 1 := wrap_succ sz _ (by omega) (by omega)
    have hb := loopBody_eq sz n s h2
    have hnat : (s.num + 1).toNat = s.num.toNat + 1 := by omega
    by_cases hpr : Nat.Prime s.num.toNat
    · have hcl : Nat.count Nat.Prime s.num.toNat <
          Nat.count Nat.Prime (Nat.nth Nat.Prime (n.toNat - 1)) :=
        Nat.count_strict_mono hpr hlt
      rw [Nat.count_nth_of_infinite hinf] at hcl
      rw [if_pos hpr, hwc, hwn, if_pos (by omega)] at hb
      rw [outerLoop_step sz n hn s _ hg hb]
      refine ih _ (by simp only; omega) ?_ (by simp only; omega) (by simp only; omega)
      simp only [hnat, Nat.count_succ, if_pos hpr]
      omega
    · rw [if_neg hpr, hwn, if_pos hg] at hb
      rw [outerLoop_step sz n hn s _ hg hb]
      refine ih _ (by simp only; omega) ?_ (by simp only; omega) (by simp only; omega)
      simp only [hnat, Nat.count_succ, if_neg hpr]
      omega

/-- An index `n ≥ 1` whose prime is an `int` is itself an `int`. -/
theorem index_le_maxInt (sz : IntSize) (n : Int) (hn : 1 ≤ n)
    (hfit : ((Nat.nth Nat.Prime (n.toNat - 1) : Nat) : Int) ≤ maxInt sz) : n ≤ maxInt sz := by
  have := Nat.add_two_le_nth_prime (n.toNat - 1)
  omega

/-- For `n ≥ 1` whose prime is an `int`, `GetNthPrime n` returns the prime number of index
`n - 1` in the increasing enumeration `Nat.nth Nat.Prime` of the primes (which counts from
zero). -/
theorem GetNthPrime_eq_nth (sz : IntSize) (n : Int) (hn : 1 ≤ n)
    (hfit : ((Nat.nth Nat.Prime (n.toNat - 1) : Nat) : Int) ≤ maxInt sz) :
    GetNthPrime sz n = some ((Nat.nth Nat.Prime (n.toNat - 1) : Nat) : Int) := by
  unfold GetNthPrime
  rw [dif_pos (index_le_maxInt sz n hn hfit)]
  refine outerLoop_of_invariant sz n _ hfit _ ⟨0, 2⟩ (le_refl _) ?_ (by simp only; omega) rfl
  simp [Nat.count_succ, Nat.not_prime_zero, Nat.not_prime_one]

/-- A prime `p` that is an `int` and has exactly `n - 1` primes below it is what
`GetNthPrime n` returns. -/
theorem GetNthPrime_of_count (sz : IntSize) (n : Int) (p : Nat) (hn : 1 ≤ n)
    (hp : Nat.Prime p) (hc : Nat.count Nat.Prime p = n.toNat - 1)
    (hfit : (p : Int) ≤ maxInt sz) : GetNthPrime sz n = some (p : Int) := by
  have e : Nat.nth Nat.Prime (n.toNat - 1) = p := by rw [← hc, Nat.nth_count hp]
  rw [GetNthPrime_eq_nth sz n hn (by rw [e]; exact hfit), e]

/-- The prime of index `k` is an `int` when it is a known prime below `2 ^ 31`. -/
theorem nth_prime_fits (sz : IntSize) (p k : Nat) (hp : Nat.Prime p)
    (hc : Nat.count Nat.Prime p = k) (hle : p ≤ 2147483647) :
    ((Nat.nth Nat.Prime k : Nat) : Int) ≤ maxInt sz := by
  have e : Nat.nth Nat.Prime k = p := by rw [← hc, Nat.nth_count hp]
  have := maxInt_ge sz
  rw [e]
  omega

/-! ### Runs with a budget of iterations -/

/-- A budgeted run of the outer loop that returns agrees with the loop itself. -/
theorem outerLoopFuel_sound (sz : IntSize) (n : Int) (hn : n ≤ maxInt sz) :
    ∀ (fuel : Nat) (s : LoopState) (r : Int),
      outerLoopFuel sz fuel n s = some r → outerLoop sz n hn s = some r := by
  intro fuel
  induction fuel with
  | zero =>
    intro s r h
    unfold outerLoopFuel at h
    by_cases hg : s.count < n
    · simp [hg] at h
    · rw [if_neg hg] at h
      rw [outerLoop_exit sz n hn s hg, h]
  | succ fuel ih =>
    intro s r h
    unfold outerLoopFuel at h
    by_cases hg : s.count < n
    · rw [if_pos hg] at h
      cases hb : loopBody sz n s with
      | none => rw [hb] at h; simp at h
      | some t =>
        rw [hb] at h
        rw [outerLoop_step sz n hn s t hg hb]
        exact ih t r h
    · rw [if_neg hg] at h
      rw [outerLoop_exit sz n hn s hg, h]

/-- From every state with `0 ≤ count ≤ n` the outer loop exits after finitely many executions
of its body, in a state with `count = n`, and returns the candidate of that state. -/
theorem outerLoop_run (sz : IntSize) (n : Int) (hn : n ≤ maxInt sz) :
    ∀ (m : Nat) (s : LoopState), loopVariant sz n s = m → 0 ≤ s.count → s.count ≤ n →
      ∃ (fuel : Nat) (t : LoopState), stateAfter sz fuel n s = some t ∧ t.count = n ∧
        outerLoopFuel sz fuel n s = some t.num ∧ outerLoop sz n hn s = some t.num := by
  intro m
  induction m using Nat.strong_induction_on with
  | _ m ih =>
    intro s hm h0 hle
    by_cases hg : s.count < n
    · obtain ⟨t, ht, hc, _⟩ := loopBody_returns sz n s
      have hdec := loopBody_variant sz n hn s t hg ht
      have hwc : wrap sz (s.count + 1) = s.count + 1 := wrap_succ sz _ h0 (by omega)
      rw [hwc] at hc
      obtain ⟨fuel, u, h1, h2, h3, h4⟩ :=
        ih (loopVariant sz n t) (by omega) t rfl (by omega) (by omega)
      refine ⟨fuel + 1, u, ?_, h2, ?_, ?_⟩
      · simp only [stateAfter, if_pos hg, ht, h1]
      · simp only [outerLoopFuel, if_pos hg, ht, h3]
      · rw [outerLoop_step sz n hn s t hg ht, h4]
    · refine ⟨0, s, rfl, by omega, ?_, outerLoop_exit sz n hn s hg⟩
      simp only [outerLoopFuel, if_neg hg]

/-- The value returned by the outer loop is an `int` when the candidate it starts from is. -/
theorem outerLoop_range (sz : IntSize) (n : Int) (hn : n ≤ maxInt sz) :
    ∀ (m : Nat) (s : LoopState), loopVariant sz n s = m →
      minInt sz ≤ s.num → s.num ≤ maxInt sz →
      ∀ r, outerLoop sz n hn s = some r → minInt sz ≤ r ∧ r ≤ maxInt sz := by
  intro m
  induction m using Nat.strong_induction_on with
  | _ m ih =>
    intro s hm h1 h2 r hr
    by_cases hg : s.count < n
    · obtain ⟨t, ht, _, hnum⟩ := loopBody_returns sz n s
      have hdec := loopBody_variant sz n hn s t hg ht
      rw [outerLoop_step sz n hn s t hg ht] at hr
      have hw := wrap_range sz (s.num + 1)
      refine ih (loopVariant sz n t) (by omega) t rfl ?_ ?_ r hr
      · rcases hnum with e | e <;> rw [e]
        · exact h1
        · exact hw.1
      · rcases hnum with e | e <;> rw [e]
        · exact h2
        · exact hw.2
    · rw [outerLoop_exit sz n hn s hg] at hr
      simp only [Option.some.injEq] at hr
      subst hr
      exact ⟨h1, h2⟩

/-- Whatever `GetNthPrime` returns is an `int`. -/
theorem GetNthPrime_range (sz : IntSize) (n r : Int) (h : GetNthPrime sz n = some r) :
    minInt sz ≤ r ∧ r ≤ maxInt sz := by
  unfold GetNthPrime at h
  by_cases hn : n ≤ maxInt sz
  · rw [dif_pos hn] at h
    have h1 := minInt_le sz
    have h2 := maxInt_ge sz
    exact outerLoop_range sz n hn _ ⟨0, 2⟩ rfl (by simp only; omega) (by simp only; omega) r h
  · rw [dif_neg hn] at h
    simp at h

/-- From a state that satisfies the loop invariant and lies `d` candidates before the searched
prime, an `int`, the outer loop runs its body exactly `d + 1` times. -/
theorem outerLoopFuel_of_invariant (sz : IntSize) (n : Int) (hn : n ≤ maxInt sz)
    (hfit : ((Nat.nth Nat.Prime (n.toNat - 1) : Nat) : Int) ≤ maxInt sz) :
    ∀ (d : Nat) (s : LoopState), 2 ≤ s.num → s.count = Nat.count Nat.Prime s.num.toNat →
      s.count < n → Nat.nth Nat.Prime (n.toNat - 1) - s.num.toNat = d →
      ∀ fuel, outerLoopFuel sz fuel n s =
        if d + 1 ≤ fuel then some ((Nat.nth Nat.Prime (n.toNat - 1) : Nat) : Int) else none := by
  have hinf := Nat.infinite_setOf_prime
  intro d
  induction d with
  | zero =>
    intro s h2 hc hg hd fuel
    have hle : s.num.toNat ≤ Nat.nth Nat.Prime (n.toNat - 1) := by
      have hcount : Nat.count Nat.Prime s.num.toNat ≤ n.toNat - 1 := by omega
      exact (Nat.count_le_iff_le_nth hinf).mp hcount
    have heq : s.num.toNat = Nat.nth Nat.Prime (n.toNat - 1) := by omega
    have hpr : Nat.Prime s.num.toNat := heq ▸ Nat.prime_nth_prime _
    have hcnt : Nat.count Nat.Prime s.num.toNat = n.toNat - 1 := by
      rw [heq]
      exact Nat.count_nth_of_infinite hinf _
    have hwc : wrap sz (s.count + 1) = s.count + 1 := wrap_succ sz _ (by omega) (by omega)
    have hb := loopBody_eq sz n s h2
    rw [if_pos hpr, hwc, if_neg (by omega)] at hb
    cases fuel with
    | zero => simp [outerLoopFuel, hg]
    | succ fuel =>
      have hex : ¬ (s.count + 1 < n) := by omega
      have hnum : s.num = ((Nat.nth Nat.Prime (n.toNat - 1) : Nat) : Int) := by omega
      cases fuel <;> simp [outerLoopFuel, hg, hb, hex, hnum]
  | succ d ih =>
    intro s h2 hc hg hd fuel
    have hlt : s.num.toNat < Nat.nth Nat.Prime (n.toNat - 1) := by omega
    have hwc : wrap sz (s.count + 1) = s.count + 1 := wrap_succ sz _ (by omega) (by omega)
    have hwn : wrap sz (s.num + 1) = s.num + 1 := wrap_succ sz _ (by omega) (by omega)
    have hb := loopBody_eq sz n s h2
    have hnat : (s.num + 1).toNat = s.num.toNat + 1 := by omega
    cases fuel with
    | zero => simp [outerLoopFuel, hg]
    | succ fuel =>
      by_cases hpr : Nat.Prime s.num.toNat
      · have hcl : Nat.count Nat.Prime s.num.toNat <
            Nat.count Nat.Prime (Nat.nth Nat.Prime (n.toNat - 1)) :=
          Nat.count_strict_mono hpr hlt
        rw [Nat.count_nth_of_infinite hinf] at hcl
        rw [if_pos hpr, hwc, hwn, if_pos (by omega)] at hb
        have hrec := ih ⟨s.count + 1, s.num + 1⟩ (by simp only; omega)
          (by simp only [hnat, Nat.count_succ, if_pos hpr]; omega)
          (by simp only; omega) (by simp only; omega) fuel
        simp only [outerLoopFuel, if_pos hg, hb, hrec, Nat.add_le_add_iff_right]
      · rw [if_neg hpr, hwn, if_pos hg] at hb
        have hrec := ih ⟨s.count, s.num + 1⟩ (by simp only; omega)
          (by simp only [hnat, Nat.count_succ, if_neg hpr]; omega)
          (by simp only; omega) (by simp only; omega) fuel
        simp only [outerLoopFuel, if_pos hg, hb, hrec, Nat.add_le_add_iff_right]

/-- For `n ≥ 1` whose prime `p` is an `int`, a run of `GetNthPrime n` with a budget returns
exactly when the budget is at least `p - 1`: one iteration for each candidate `2, …, p`. -/
theorem GetNthPrimeFuel_eq (sz : IntSize) (n : Int) (hn : 1 ≤ n)
    (hfit : ((Nat.nth Nat.Prime (n.toNat - 1) : Nat) : Int) ≤ maxInt sz) (fuel : Nat) :
    GetNthPrimeFuel sz fuel n =
      if Nat.nth Nat.Prime (n.toNat - 1) - 1 ≤ fuel
        then some ((Nat.nth Nat.Prime (n.toNat - 1) : Nat) : Int) else none := by
  have h2 := Nat.add_two_le_nth_prime (n.toNat - 1)
  have h := outerLoopFuel_of_invariant sz n (index_le_maxInt sz n hn hfit) hfit
    (Nat.nth Nat.Prime (n.toNat - 1) - 2) ⟨0, 2⟩
    (le_refl _) (by simp [Nat.count_succ, Nat.not_prime_zero, Nat.not_prime_one])
    (by simp only; omega) rfl fuel
  have e : Nat.nth Nat.Prime (n.toNat - 1) - 2 + 1 = Nat.nth Nat.Prime (n.toNat - 1) - 1 := by
    omega
  rw [e] at h
  exact h

/-- Any bound between the exact integer square root and `num - 1` gives the same result of
the trial division as the exact integer square root. -/
theorem trialLoop_bound_irrelevant (num sqrtNum : Int) (h2 : 2 ≤ num)
    (h1 : intSqrt num ≤ sqrtNum) (h3 : sqrtNum < num) :
    trialLoop num sqrtNum 2 = trialLoop num (intSqrt num) 2 := by
  obtain ⟨b, hb, hspec⟩ := trialLoop_prime num h2
  obtain ⟨c, hc, hspec2⟩ := trialLoop_spec num sqrtNum _ 2 (by norm_num) rfl
  rw [hb, hc]
  have hnum : ((num.toNat : Nat) : Int) = num := Int.toNat_of_nonneg (by omega)
  have hiff : c = true ↔ b = true := by
    rw [hspec, hspec2, Nat.prime_def_lt']
    constructor
    · intro h
      refine ⟨by omega, ?_⟩
      intro m hm1 hm2 hdvd
      by_cases hle : (m : Int) ≤ sqrtNum
      · refine h (m : Int) (by exact_mod_cast hm1) hle ?_
        rw [← hnum]
        exact_mod_cast hdvd
      · -- a divisor above the bound has a cofactor below the exact root
        have hp : ¬ Nat.Prime num.toNat := by
          intro hpr
          have := (Nat.prime_def_lt'.mp hpr).2 m hm1 hm2
          exact this hdvd
        have hmf := Nat.minFac_sq_le_self (by omega : 0 < num.toNat) hp
        have hmf2 := (Nat.minFac_prime (by omega : num.toNat ≠ 1)).two_le
        have hsq : Nat.minFac num.toNat ≤ Nat.sqrt num.toNat := by
          rw [Nat.le_sqrt, ← sq]
          exact hmf
        have hsq2 : intSqrt num = ((Nat.sqrt num.toNat : Nat) : Int) := rfl
        refine h (Nat.minFac num.toNat : Int) (by exact_mod_cast hmf2) (by omega) ?_
        rw [← hnum]
        exact_mod_cast Nat.minFac_dvd num.toNat
    · rintro ⟨_, h⟩ j hj1 hj2 hdvd
      have hj0 : 0 ≤ j := by omega
      have hjn : ((j.toNat : Nat) : Int) = j := Int.toNat_of_nonneg hj0
      refine h j.toNat (by omega) (by omega) ?_
      rw [← hjn, ← hnum] at hdvd
      exact_mod_cast hdvd
  cases b <;> cases c <;> simp_all

/-- A budgeted run of the inner loop that returns agrees with the loop itself. -/
theorem trialLoopFuel_sound (num sqrtNum : Int) :
    ∀ (fuel : Nat) (i : Int) (b : Bool),
      trialLoopFuel fuel num sqrtNum i = some b → trialLoop num sqrtNum i = some b := by
  intro fuel
  induction fuel with
  | zero =>
    intro i b h
    unfold trialLoopFuel at h
    by_cases hle : i ≤ sqrtNum
    · simp [hle] at h
    · rw [if_neg hle] at h
      rw [trialLoop, if_neg hle, h]
  | succ fuel ih =>
    intro i b h
    unfold trialLoopFuel at h
    rw [trialLoop]
    by_cases hle : i ≤ sqrtNum
    · rw [if_pos hle] at h
      rw [if_pos hle]
      cases hr : goRem num i with
      | none => rw [hr] at h; simp at h
      | some r =>
        rw [hr] at h
        simp only at h ⊢
        by_cases h0 : r = 0
        · rw [if_pos h0] at h
          rw [if_pos h0, h]
        · rw [if_neg h0] at h
          rw [if_neg h0]
          exact ih (i + 1) b h
    · rw [if_neg hle] at h
      rw [if_neg hle, h]

/-- From a positive start `i`, a budget of `sqrtNum + 1 - i` body executions is enough for the
inner loop to return. -/
theorem trialLoopFuel_returns (num sqrtNum : Int) :
    ∀ (fuel : Nat) (i : Int), 0 < i → (sqrtNum + 1 - i).toNat ≤ fuel →
      ∃ b, trialLoopFuel fuel num sqrtNum i = some b := by
  intro fuel
  induction fuel with
  | zero =>
    intro i _ hk
    have hlt : ¬ i ≤ sqrtNum := by omega
    exact ⟨true, by simp [trialLoopFuel, hlt]⟩
  | succ fuel ih =>
    intro i hi hk
    by_cases hle : i ≤ sqrtNum
    · have hne : i ≠ 0 := by omega
      by_cases hd : Int.tmod num i = 0
      · exact ⟨false, by simp [trialLoopFuel, hle, goRem_of_ne_zero _ _ hne, hd]⟩
      · obtain ⟨b, hb⟩ := ih (i + 1) (by omega) (by omega)
        exact ⟨b, by simp [trialLoopFuel, hle, goRem_of_ne_zero _ _ hne, hd, hb]⟩
    · exact ⟨true, by simp [trialLoopFuel, hle]⟩

/-! ### The reference loop -/

/-- The reference loop returns its candidate when the guard fails. -/
theorem alwaysIncrementLoop_exit (n : Int) (s : LoopState) (hg : ¬ s.count < n) :
    alwaysIncrementLoop n s = some s.num := by
  rw [alwaysIncrementLoop, if_neg hg]

/-- Under the guard the reference loop continues from the state left by its round. -/
theorem alwaysIncrementLoop_step (n : Int) (s t : LoopState) (hg : s.count < n)
    (hb : specBody s = some t) : alwaysIncrementLoop n s = alwaysIncrementLoop n t := by
  rw [alwaysIncrementLoop, if_pos hg]
  split
  · rename_i h
    rw [hb] at h
    simp at h
  · rename_i u h
    rw [hb] at h
    simp only [Option.some.injEq] at h
    subst h
    rfl

/-- A round of the reference loop on a candidate `num ≥ 2`. -/
theorem specBody_eq (s : LoopState) (h2 : 2 ≤ s.num) :
    specBody s =
      some ⟨if Nat.Prime s.num.toNat then s.count + 1 else s.count, s.num + 1⟩ := by
  obtain ⟨b, hb, hspec⟩ := trialLoop_prime s.num h2
  unfold specBody
  rw [hb]
  by_cases hp : Nat.Prime s.num.toNat
  · have : b = true := hspec.mpr hp
    subst this
    simp [hp]
  · have : b = false := by
      cases b
      · rfl
      · exact absurd (hspec.mp rfl) hp
    subst this
    simp [hp]

/-- Under the loop invariant the reference loop leaves the candidate one past the prime with
exactly `n - 1` primes below it. -/
theorem alwaysIncrementLoop_of_invariant (n : Int) :
    ∀ (d : Nat) (s : LoopState), 2 ≤ s.num → s.count = Nat.count Nat.Prime s.num.toNat →
      s.count < n → Nat.nth Nat.Prime (n.toNat - 1) - s.num.toNat = d →
      alwaysIncrementLoop n s = some (((Nat.nth Nat.Prime (n.toNat - 1) : Nat) : Int) + 1) := by
  have hinf := Nat.infinite_setOf_prime
  intro d
  induction d with
  | zero =>
    intro s h2 hc hg hd
    have hle : s.num.toNat ≤ Nat.nth Nat.Prime (n.toNat - 1) := by
      have hcount : Nat.count Nat.Prime s.num.toNat ≤ n.toNat - 1 := by omega
      exact (Nat.count_le_iff_le_nth hinf).mp hcount
    have heq : s.num.toNat = Nat.nth Nat.Prime (n.toNat - 1) := by omega
    have hpr : Nat.Prime s.num.toNat := heq ▸ Nat.prime_nth_prime _
    have hcnt : Nat.count Nat.Prime s.num.toNat = n.toNat - 1 := by
      rw [heq]
      exact Nat.count_nth_of_infinite hinf _
    have hb := specBody_eq s h2
    rw [if_pos hpr] at hb
    rw [alwaysIncrementLoop_step n s _ hg hb,
      alwaysIncrementLoop_exit n _ (by simp only; omega)]
    simp only [Option.some.injEq]
    omega
  | succ d ih =>
    intro s h2 hc hg hd
    have hlt : s.num.toNat < Nat.nth Nat.Prime (n.toNat - 1) := by omega
    have hb := specBody_eq s h2
    have hnat : (s.num + 1).toNat = s.num.toNat + 1 := by omega
    rw [alwaysIncrementLoop_step n s _ hg hb]
    by_cases hpr : Nat.Prime s.num.toNat
    · have hcl : Nat.count Nat.Prime s.num.toNat <
          Nat.count Nat.Prime (Nat.nth Nat.Prime (n.toNat - 1)) :=
        Nat.count_strict_mono hpr hlt
      rw [Nat.count_nth_of_infinite hinf] at hcl
      refine ih _ (by simp only; omega) ?_ (by simp only [if_pos hpr]; omega)
        (by simp only; omega)
      simp only [hnat, Nat.count_succ, if_pos hpr]
      omega
    · refine ih _ (by simp only; omega) ?_ (by simp only [if_neg hpr]; omega)
        (by simp only; omega)
      simp only [hnat, Nat.count_succ, if_neg hpr]
      omega

/-- For `n ≥ 1` the reference loop ends one past the prime of index `n - 1`. -/
theorem alwaysIncrementLoop_eq_nth (n : Int) (hn : 1 ≤ n) :
    alwaysIncrementLoop n ⟨0, 2⟩ =
      some (((Nat.nth Nat.Prime (n.toNat - 1) : Nat) : Int) + 1) := by
  refine alwaysIncrementLoop_of_invariant n _ ⟨0, 2⟩ (le_refl _) ?_ (by simp only; omega) rfl
  simp [Nat.count_succ, Nat.not_prime_zero, Nat.not_prime_one]

/-- For `n ≥ 1` the reference result is the prime of index `n - 1`. -/
theorem specNthPrime_eq_nth (n : Int) (hn : 1 ≤ n) :
    specNthPrime n = some ((Nat.nth Nat.Prime (n.toNat - 1) : Nat) : Int) := by
  unfold specNthPrime
  rw [alwaysIncrementLoop_eq_nth n hn]
  simp

/-! ### Counting primes -/

/-- The indicator is `1` on a number coprime to `K`. -/
theorem coprimeInd_of_coprime (K m : Nat) (h : Nat.gcd m K = 1) : coprimeInd K m = 1 := by
  show 1 - (Nat.gcd m K - 1) = 1
  rw [h]

/-- The indicator is `0` on a number that shares a factor `q ≥ 2` with `K`. -/
theorem coprimeInd_of_common (K m q : Nat) (hq : 2 ≤ q) (hm : q ∣ m) (hK : q ∣ K) (hK0 : 0 < K) :
    coprimeInd K m = 0 := by
  show 1 - (Nat.gcd m K - 1) = 0
  have hd : q ∣ Nat.gcd m K := Nat.dvd_gcd hm hK
  have hpos : 0 < Nat.gcd m K := Nat.gcd_pos_of_pos_right _ hK0
  have := Nat.le_of_dvd hpos hd
  omega

/-- Between `B` and `(B + 1)²` a number is prime exactly when it is coprime to `B !`. -/
theorem coprimeInd_factorial (B m : Nat) (h1 : B < m) (h2 : m < (B + 1) * (B + 1)) (hB : 1 ≤ B) :
    coprimeInd (Nat.factorial B) m = if Nat.Prime m then 1 else 0 := by
  by_cases hp : Nat.Prime m
  · rw [if_pos hp]
    apply coprimeInd_of_coprime
    rw [← Nat.coprime_iff_gcd_eq_one, hp.coprime_iff_not_dvd, hp.dvd_factorial]
    omega
  · rw [if_neg hp]
    have hm0 : 0 < m := by omega
    have hsq : Nat.minFac m ^ 2 ≤ m := Nat.minFac_sq_le_self hm0 hp
    have hle : Nat.minFac m ≤ B := by
      by_contra hcon
      have : (B + 1) * (B + 1) ≤ Nat.minFac m ^ 2 := by
        rw [sq]
        exact Nat.mul_le_mul (by omega) (by omega)
      omega
    have h2le : 2 ≤ Nat.minFac m := (Nat.minFac_prime (by omega)).two_le
    exact coprimeInd_of_common _ m (Nat.minFac m) h2le (Nat.minFac_dvd m)
      (Nat.dvd_factorial (by omega) hle) (Nat.factorial_pos B)

/-- The primes of `[lo, lo + len)` are counted by `cntLin` with `K = B !`, when `B < lo` and
`lo + len ≤ (B + 1)²`. -/
theorem count_prime_add_cntLin (B lo : Nat) (hB : 1 ≤ B) (hlo : B < lo) :
    ∀ len, lo + len ≤ (B + 1) * (B + 1) →
      Nat.count Nat.Prime (lo + len) = Nat.count Nat.Prime lo + cntLin (Nat.factorial B) lo len := by
  intro len
  induction len with
  | zero => intro _; rfl
  | succ len ih =>
    intro h
    rw [← Nat.add_assoc, Nat.count_succ, ih (by omega)]
    show _ = _ + (cntLin _ lo len + coprimeInd _ (lo + len))
    rw [coprimeInd_factorial B (lo + len) (by omega) (by omega) hB]
    omega

/-- The count over a range is the sum of the counts over its two parts. -/
theorem cntLin_add (K lo a : Nat) :
    ∀ b, cntLin K lo (a + b) = cntLin K lo a + cntLin K (lo + a) b := by
  intro b
  induction b with
  | zero => rfl
  | succ b ih =>
    show cntLin K lo (a + b) + coprimeInd K (lo + (a + b)) =
      cntLin K lo a + (cntLin K (lo + a) b + coprimeInd K (lo + a + b))
    rw [ih, Nat.add_assoc lo a b]
    omega

/-- In a block of 30 that starts at a multiple of 30, only the eight residues coprime to 30
can be coprime to a multiple `K` of 30. -/
theorem cntLin_block (K b : Nat) (hK : 30 ∣ K) (hK0 : 0 < K) (hb : 30 ∣ b) :
    cntLin K b 30 = blk30 K b := by
  have z : ∀ r q : Nat, 2 ≤ q → q ∣ 30 → q ∣ r → coprimeInd K (b + r) = 0 := by
    intro r q hq h30 hr
    exact coprimeInd_of_common K (b + r) q hq
      (Nat.dvd_add (Nat.dvd_trans h30 hb) hr) (Nat.dvd_trans h30 hK) hK0
  show cntLin K b 0 + coprimeInd K (b + 0) + coprimeInd K (b + 1) + coprimeInd K (b + 2)
    + coprimeInd K (b + 3) + coprimeInd K (b + 4) + coprimeInd K (b + 5) + coprimeInd K (b + 6)
    + coprimeInd K (b + 7) + coprimeInd K (b + 8) + coprimeInd K (b + 9) + coprimeInd K (b + 10)
    + coprimeInd K (b + 11) + coprimeInd K (b + 12) + coprimeInd K (b + 13)
    + coprimeInd K (b + 14) + coprimeInd K (b + 15) + coprimeInd K (b + 16)
    + coprimeInd K (b + 17) + coprimeInd K (b + 18) + coprimeInd K (b + 19)
    + coprimeInd K (b + 20) + coprimeInd K (b + 21) + coprimeInd K (b + 22)
    + coprimeInd K (b + 23) + coprimeInd K (b + 24) + coprimeInd K (b + 25)
    + coprimeInd K (b + 26) + coprimeInd K (b + 27) + coprimeInd K (b + 28)
    + coprimeInd K (b + 29)
    = coprimeInd K (b + 1) + (coprimeInd K (b + 7) + (coprimeInd K (b + 11)
      + (coprimeInd K (b + 13) + (coprimeInd K (b + 17) + (coprimeInd K (b + 19)
      + (coprimeInd K (b + 23) + coprimeInd K (b + 29)))))))
  rw [z 0 2, z 2 2, z 3 3, z 4 2, z 5 5, z 6 2, z 8 2, z 9 3, z 10 2, z 12 2, z 14 2, z 15 3,
    z 16 2, z 18 2, z 20 2, z 21 3, z 22 2, z 24 2, z 25 5, z 26 2, z 27 3, z 28 2]
  · have h0 : cntLin K b 0 = 0 := rfl
    rw [h0]
    omega
  all_goals norm_num

/-- Halving computes the count over `2 ^ d` blocks. -/
theorem cntBlk_eq (K : Nat) (hK : 30 ∣ K) (hK0 : 0 < K) :
    ∀ d b, 30 ∣ b → cntBlk K d b = cntLin K b (30 * 2 ^ d) := by
  intro d
  induction d with
  | zero => intro b hb; exact (cntLin_block K b hK hK0 hb).symm
  | succ d ih =>
    intro b hb
    show cntBlk K d b + cntBlk K d (b + 30 * 2 ^ d) = _
    rw [ih b hb, ih (b + 30 * 2 ^ d) (Nat.dvd_add hb (Nat.dvd_mul_right _ _)), ← cntLin_add]
    congr 1
    rw [pow_succ]
    omega

/-- Following the binary digits of `nb` computes the count over `nb` blocks. -/
theorem cntBits_eq (K : Nat) (hK : 30 ∣ K) (hK0 : 0 < K) :
    ∀ d b nb, 30 ∣ b → nb < 2 ^ d → cntBits K d b nb = cntLin K b (30 * nb) := by
  intro d
  induction d with
  | zero =>
    intro b nb _ hnb
    have : nb = 0 := by simpa using hnb
    subst this
    rfl
  | succ d ih =>
    intro b nb hb hnb
    rw [pow_succ] at hnb
    by_cases hge : 2 ^ d ≤ nb
    · show (if 2 ^ d ≤ nb then
          cntBlk K d b + cntBits K d (b + 30 * 2 ^ d) (nb - 2 ^ d) else cntBits K d b nb) = _
      rw [if_pos hge, cntBlk_eq K hK hK0 d b hb,
        ih (b + 30 * 2 ^ d) (nb - 2 ^ d) (Nat.dvd_add hb (Nat.dvd_mul_right _ _)) (by omega),
        ← cntLin_add]
      congr 1
      omega
    · show (if 2 ^ d ≤ nb then
          cntBlk K d b + cntBits K d (b + 30 * 2 ^ d) (nb - 2 ^ d) else cntBits K d b nb) = _
      rw [if_neg hge]
      exact ih b nb hb (by omega)

/-- Splitting the count of primes below `N = lo + len` at `lo`, the upper part counted by
greatest common divisors with `B !`. -/
theorem count_prime_split (B lo len N : Nat) (hB : 1 ≤ B) (hlo : B < lo) (hN : lo + len = N)
    (hsq : N ≤ (B + 1) * (B + 1)) :
    Nat.count Nat.Prime N = Nat.count Nat.Prime lo + cntLin (Nat.factorial B) lo len := by
  subst hN
  exact count_prime_add_cntLin B lo hB hlo len hsq

/-- Splitting a range that starts at a multiple of 30 into `nb` blocks of 30, counted on the
residues coprime to 30, and a remainder. -/
theorem cntLin_split (K d b nb len top r : Nat) (hK : 30 ∣ K) (hK0 : 0 < K) (hb : 30 ∣ b)
    (hnb : nb < 2 ^ d) (hlen : 30 * nb + r = len) (htop : b + 30 * nb = top) :
    cntLin K b len = cntBits K d b nb + cntLin K top r := by
  subst hlen htop
  rw [cntLin_add, cntBits_eq K hK hK0 d b nb hb hnb]

/-- There are 8 primes below 22. -/
theorem count_prime_22 : Nat.count Nat.Prime 22 = 8 := by decide

/-- The value of the count, by evaluation. -/
theorem cnt_eval :
    8 + cntLin (Nat.factorial 21) 22 458
      + (cntBits (Nat.factorial 478) 13 480 7475 + cntLin (Nat.factorial 478) 224730 7) = 19999 := by
  decide!

/-- There are exactly 19999 primes below 224737. -/
theorem count_prime_224737 : Nat.count Nat.Prime 224737 = 19999 := by
  have h30 : 30 ∣ Nat.factorial 478 := Nat.dvd_factorial (by norm_num) (by norm_num)
  have hpos : 0 < Nat.factorial 478 := Nat.factorial_pos _
  have e1 : Nat.count Nat.Prime 224737 =
      Nat.count Nat.Prime 480 + cntLin (Nat.factorial 478) 480 224257 :=
    count_prime_split 478 480 224257 224737 (by norm_num) (by norm_num) (by norm_num)
      (by norm_num)
  have e2 : Nat.count Nat.Prime 480 =
      Nat.count Nat.Prime 22 + cntLin (Nat.factorial 21) 22 458 :=
    count_prime_split 21 22 458 480 (by norm_num) (by norm_num) (by norm_num) (by norm_num)
  have e3 : cntLin (Nat.factorial 478) 480 224257 =
      cntBits (Nat.factorial 478) 13 480 7475 + cntLin (Nat.factorial 478) 224730 7 :=
    cntLin_split (Nat.factorial 478) 13 480 7475 224257 224730 7 h30 hpos (by norm_num)
      (by norm_num) (by norm_num) (by norm_num)
  rw [e1, e2, e3, count_prime_22]
  exact cnt_eval

/-- The number 224737 is prime. -/
theorem prime_224737 : Nat.Prime 224737 := by norm_num

/-- The 20000th prime, as `GetNthPrime` finds it on either platform. -/
theorem GetNthPrime_20000 (sz : IntSize) : GetNthPrime sz 20000 = some 224737 := by
  have h := maxInt_ge sz
  exact GetNthPrime_of_count sz 20000 224737 (by norm_num) prime_224737 count_prime_224737
    (by push_cast; omega)

/-! ### The handlers -/

/-- The message of `heavyHandler`. -/
theorem sprintfFound_20000 : sprintfFound 20000 = "Found 20000th prime number" := by
  decide

/-- The trace of `heavyHandler`, for any request and clock readings. -/
theorem heavyHandler_eq (sz : IntSize) (r : Request) (start now : Int) :
    heavyHandler sz r start now =
      some [Effect.setHeader "Content-Type" "application/json",
        Effect.encode [
          ("Message", Value.str "Found 20000th prime number"),
          ("Result", Value.int 224737),
          ("DurationMs", Value.float64 (Milliseconds (now - start))),
          ("Platform", Value.str "Go")]] := by
  unfold heavyHandler
  simp only [GetNthPrime_20000, sprintfFound_20000, Since]

/-- On a non-negative duration `Milliseconds` is the number of whole milliseconds. -/
theorem Milliseconds_bounds (d : Int) (hd : 0 ≤ d) :
    0 ≤ Milliseconds d ∧ Milliseconds d * 1000000 ≤ d ∧ d < (Milliseconds d + 1) * 1000000 := by
  unfold Milliseconds
  rw [Int.tdiv_eq_ediv hd (by norm_num)]
  omega

/-! ## The claims -/

/-- C1, as amended. For every `n ≥ 1` whose n-th prime is an `int` (at most `2 ^ 63 - 1` on a
64-bit platform, `2 ^ 31 - 1` on a 32-bit one), `GetNthPrime n` returns the n-th prime in
ascending order, counting from one: the result `p` is prime, exactly `n - 1` primes are smaller
than `p`, and `p` is the entry of index `n - 1` of the increasing enumeration of the primes.  In
particular `GetNthPrime 1 = 2`, `GetNthPrime 2 = 3`, `GetNthPrime 5 = 11` and
`GetNthPrime 6 = 13` on both platforms. -/
theorem GetNthPrime_returns_nth_prime (sz : IntSize) :
    (∀ n : Int, 1 ≤ n → ((Nat.nth Nat.Prime (n.toNat - 1) : Nat) : Int) ≤ maxInt sz →
      ∃ p : Nat, GetNthPrime sz n = some (p : Int) ∧ Nat.Prime p ∧
        (Nat.count Nat.Prime p : Int) = n - 1 ∧ p = Nat.nth Nat.Prime (n.toNat - 1)) ∧
    GetNthPrime sz 1 = some 2 ∧ GetNthPrime sz 2 = some 3 ∧
    GetNthPrime sz 5 = some 11 ∧ GetNthPrime sz 6 = some 13 := by
  have hmax := maxInt_ge sz
  refine ⟨?_, ?_, ?_, ?_, ?_⟩
  · intro n hn hfit
    refine ⟨Nat.nth Nat.Prime (n.toNat - 1), GetNthPrime_eq_nth sz n hn hfit,
      Nat.prime_nth_prime _, ?_, rfl⟩
    rw [Nat.count_nth_of_infinite Nat.infinite_setOf_prime]
    omega
  · exact GetNthPrime_of_count sz 1 2 (by norm_num) (by norm_num) (by decide)
      (by push_cast; omega)
  · exact GetNthPrime_of_count sz 2 3 (by norm_num) (by norm_num) (by decide)
      (by push_cast; omega)
  · exact GetNthPrime_of_count sz 5 11 (by norm_num) (by norm_num) (by decide)
      (by push_cast; omega)
  · exact GetNthPrime_of_count sz 6 13 (by norm_num) (by norm_num) (by decide)
      (by push_cast; omega)

theorem GetNthPrime_returns_nth_prime_witness :
    (1 : Int) ≤ 4 ∧
    ((Nat.nth Nat.Prime ((4 : Int).toNat - 1) : Nat) : Int) ≤ maxInt IntSize.bits32 ∧
    ∃ p : Nat, GetNthPrime IntSize.bits32 4 = some (p : Int) ∧ Nat.Prime p ∧
        (Nat.count Nat.Prime p : Int) = 4 - 1 ∧ p = Nat.nth Nat.Prime ((4 : Int).toNat - 1) :=
  ⟨by decide,
    nth_prime_fits IntSize.bits32 7 3 (by norm_num) (by decide) (by norm_num),
    (GetNthPrime_returns_nth_prime IntSize.bits32).1 4 (by decide)
      (nth_prime_fits IntSize.bits32 7 3 (by norm_num) (by decide) (by norm_num))⟩

/-- C1, as stated, fails on the largest 64-bit `int`: whatever `GetNthPrime` returns there is
an `int`, and no `int` has `2 ^ 63 - 2` primes below it. -/
theorem GetNthPrime_not_nth_prime_at_maxInt :
    (1 : Int) ≤ 9223372036854775807 ∧
    ¬ ∃ p : Nat, GetNthPrime IntSize.bits64 9223372036854775807 = some (p : Int) ∧
        Nat.Prime p ∧ (Nat.count Nat.Prime p : Int) = 9223372036854775807 - 1 := by
  refine ⟨by norm_num, ?_⟩
  rintro ⟨p, hp, hpr, hc⟩
  have hr := (GetNthPrime_range IntSize.bits64 _ _ hp).2
  have hk := Nat.add_two_le_nth_prime (Nat.count Nat.Prime p)
  rw [Nat.nth_count hpr] at hk
  simp only [maxInt, IntSize.bits] at hr
  norm_num at hr
  omega

/-- C2. `GetNthPrime 20000` is 224737, and that is the value under the key `Result` of the
response of `heavyHandler`, whatever the request and the clock readings; on both platforms. -/
theorem GetNthPrime_20000_eq :
    (∀ sz : IntSize, GetNthPrime sz 20000 = some 224737) ∧
    ∀ (sz : IntSize) (r : Request) (start now : Int), ∃ header response,
      heavyHandler sz r start now = some [header, Effect.encode response] ∧
      List.lookup "Result" response = some (Value.int 224737) := by
  refine ⟨GetNthPrime_20000, ?_⟩
  intro sz r start now
  exact ⟨_, _, heavyHandler_eq sz r start now, rfl⟩

/-- C3. For every request and clock readings `start ≤ now` (nanoseconds), `heavyHandler` sets
the header `Content-Type` to `application/json` and encodes a map with exactly the four keys
`Message`, `Result`, `DurationMs`, `Platform`: the message is `Found 20000th prime number`, the
result is `GetNthPrime 20000 = 224737`, the platform is `Go`, and `DurationMs` is the
non-negative number of whole milliseconds in the elapsed time `now - start`.  The trace does not
depend on the request.  This holds on both platforms. -/
theorem heavyHandler_response (sz : IntSize) (r : Request) (start now : Int)
    (h : start ≤ now) :
    heavyHandler sz r start now =
      some [Effect.setHeader "Content-Type" "application/json",
        Effect.encode [
          ("Message", Value.str "Found 20000th prime number"),
          ("Result", Value.int 224737),
          ("DurationMs", Value.float64 (Milliseconds (now - start))),
          ("Platform", Value.str "Go")]] ∧
    GetNthPrime sz 20000 = some 224737 ∧
    0 ≤ Milliseconds (now - start) ∧
    Milliseconds (now - start) * 1000000 ≤ now - start ∧
    now - start < (Milliseconds (now - start) + 1) * 1000000 ∧
    ∀ r2 : Request, heavyHandler sz r2 start now = heavyHandler sz r start now := by
  obtain ⟨h1, h2, h3⟩ := Milliseconds_bounds (now - start) (by omega)
  refine ⟨heavyHandler_eq sz r start now, GetNthPrime_20000 sz, h1, h2, h3, ?_⟩
  intro r2
  rw [heavyHandler_eq sz r2, heavyHandler_eq sz r]

theorem heavyHandler_response_witness :
    (1000000000 : Int) ≤ 1002500000 ∧
    heavyHandler IntSize.bits64 ⟨"POST", "/heavy", [], "ignored"⟩ 1000000000 1002500000 =
      some [Effect.setHeader "Content-Type" "application/json",
        Effect.encode [
          ("Message", Value.str "Found 20000th prime number"),
          ("Result", Value.int 224737),
          ("DurationMs", Value.float64 2),
          ("Platform", Value.str "Go")]] :=
  ⟨by decide,
    (heavyHandler_response IntSize.bits64 ⟨"POST", "/heavy", [], "ignored"⟩ 1000000000
      1002500000 (by decide)).1⟩

/-- C4. For every request `ioHandler` first sleeps for 100 milliseconds, then sets the header
`Content-Type` to `application/json` and encodes the map with exactly the two keys `Message`
(`I/O Operation Complete`) and `Platform` (`Go`); two requests get equal traces. -/
theorem ioHandler_fixed_response (r1 r2 : Request) :
    ioHandler r1 =
      [Effect.sleep 100000000,
       Effect.setHeader "Content-Type" "application/json",
       Effect.encode [
         ("Message", Value.str "I/O Operation Complete"),
         ("Platform", Value.str "Go")]] ∧
    100 * Millisecond = (100000000 : Int) ∧
    ioHandler r1 = ioHandler r2 :=
  ⟨rfl, rfl, rfl⟩

/-- C5. For every `int` `n ≥ 1`, `GetNthPrime n` terminates: it returns a value, after finitely
many executions of the body of the outer loop, which it leaves with `count = n`.  When the
n-th prime `p` is an `int`, the body is executed exactly `p - 1` times (a budget of `p - 1`
iterations or more gives `p`, a smaller budget is exhausted).  Whatever bound `sqrtNum` the
square root gives, the inner loop returns within `sqrtNum - 1` executions of its body, hence
within as many executions as the integer square root of the candidate when the bound is at
most one above it. -/
theorem GetNthPrime_terminates (sz : IntSize) (n : Int) (hn : 1 ≤ n) (hmax : n ≤ maxInt sz) :
    (∃ (r : Int) (fuel : Nat) (t : LoopState), GetNthPrime sz n = some r ∧
      GetNthPrimeFuel sz fuel n = some r ∧
      stateAfter sz fuel n ⟨0, 2⟩ = some t ∧ t.count = n ∧ t.num = r) ∧
    (((Nat.nth Nat.Prime (n.toNat - 1) : Nat) : Int) ≤ maxInt sz →
      ∀ fuel, GetNthPrimeFuel sz fuel n =
        if Nat.nth Nat.Prime (n.toNat - 1) - 1 ≤ fuel
          then some ((Nat.nth Nat.Prime (n.toNat - 1) : Nat) : Int) else none) ∧
    (∀ num sqrtNum : Int, ∃ b,
      trialLoopFuel (sqrtNum - 1).toNat num sqrtNum 2 = some b ∧
      trialLoop num sqrtNum 2 = some b) ∧
    (∀ num sqrtNum : Int, sqrtNum ≤ intSqrt num + 1 → ∃ b,
      trialLoopFuel (intSqrt num).toNat num sqrtNum 2 = some b ∧
      trialLoop num sqrtNum 2 = some b) := by
  refine ⟨?_, ?_, ?_, ?_⟩
  · obtain ⟨fuel, t, h1, h2, h3, h4⟩ :=
      outerLoop_run sz n hmax _ ⟨0, 2⟩ rfl (le_refl _) (by simp only; omega)
    refine ⟨t.num, fuel, t, ?_, h3, h1, h2, rfl⟩
    unfold GetNthPrime
    rw [dif_pos hmax, h4]
  · intro hfit fuel
    exact GetNthPrimeFuel_eq sz n hn hfit fuel
  · intro num sqrtNum
    obtain ⟨b, hb⟩ := trialLoopFuel_returns num sqrtNum (sqrtNum - 1).toNat 2
      (by norm_num) (by omega)
    exact ⟨b, hb, trialLoopFuel_sound num sqrtNum _ 2 b hb⟩
  · intro num sqrtNum hle
    obtain ⟨b, hb⟩ := trialLoopFuel_returns num sqrtNum (intSqrt num).toNat 2
      (by norm_num) (by omega)
    exact ⟨b, hb, trialLoopFuel_sound num sqrtNum _ 2 b hb⟩

theorem GetNthPrime_terminates_witness :
    (1 : Int) ≤ 2147483647 ∧ (2147483647 : Int) ≤ maxInt IntSize.bits32 ∧
    ∃ (r : Int) (fuel : Nat) (t : LoopState), GetNthPrime IntSize.bits32 2147483647 = some r ∧
      GetNthPrimeFuel IntSize.bits32 fuel 2147483647 = some r ∧
      stateAfter IntSize.bits32 fuel 2147483647 ⟨0, 2⟩ = some t ∧
      t.count = 2147483647 ∧ t.num = r :=
  ⟨by decide, by decide,
    (GetNthPrime_terminates IntSize.bits32 2147483647 (by decide) (by decide)).1⟩

/-- C6. For every `n ≤ 0`, `GetNthPrime n` returns the initial candidate 2 (a value, not an
error), and it does so without executing the body of the loop: a budget of zero iterations is
enough, and the loop variables keep their initial values `count = 0`, `num = 2`.  This holds
on both platforms. -/
theorem GetNthPrime_nonpositive (sz : IntSize) (n : Int) (hn : n ≤ 0) :
    GetNthPrime sz n = some 2 ∧ GetNthPrimeFuel sz 0 n = some 2 ∧
    ∀ k, stateAfter sz k n ⟨0, 2⟩ = some ⟨0, 2⟩ := by
  have hg : ¬ (0 : Int) < n := by omega
  have hmax : n ≤ maxInt sz := by
    have := maxInt_ge sz
    omega
  refine ⟨?_, ?_, ?_⟩
  · unfold GetNthPrime
    rw [dif_pos hmax]
    exact outerLoop_exit sz n hmax ⟨0, 2⟩ hg
  · show (if (0 : Int) < n then none else some (2 : Int)) = some 2
    rw [if_neg hg]
  · intro k
    cases k with
    | zero => rfl
    | succ k =>
      show (if (0 : Int) < n then _ else some (⟨0, 2⟩ : LoopState)) = some ⟨0, 2⟩
      rw [if_neg hg]

theorem GetNthPrime_nonpositive_witness :
    (-7 : Int) ≤ 0 ∧ GetNthPrime IntSize.bits64 (-7) = some 2 ∧
    GetNthPrimeFuel IntSize.bits64 0 (-7) = some 2 ∧
    ∀ k, stateAfter IntSize.bits64 k (-7) ⟨0, 2⟩ = some ⟨0, 2⟩ :=
  ⟨by decide, GetNthPrime_nonpositive IntSize.bits64 (-7) (by decide)⟩

/-- C8. For every candidate `num ≥ 2`, the inner loop over the divisors `2, …, sqrtNum` returns
(no remainder operation panics) and leaves `isPrime` true if and only if `num` is prime.  Every
divisor `i ≥ 2` gives a defined remainder, and started at any `i ≥ 2` with any bound the loop
never panics. -/
theorem trialLoop_isPrime_iff (num : Int) (h : 2 ≤ num) :
    (∃ b, trialLoop num (intSqrt num) 2 = some b ∧ (b = true ↔ Nat.Prime num.toNat)) ∧
    (∀ i : Int, 2 ≤ i → goRem num i = some (Int.tmod num i)) ∧
    (∀ sqrtNum i : Int, 2 ≤ i → trialLoop num sqrtNum i ≠ none) := by
  refine ⟨trialLoop_prime num h, ?_, ?_⟩
  · intro i hi
    exact goRem_of_ne_zero num i (by omega)
  · intro sqrtNum i hi
    obtain ⟨b, hb, _⟩ := trialLoop_spec num sqrtNum _ i (by omega) rfl
    rw [hb]
    simp

theorem trialLoop_isPrime_iff_witness :
    (2 : Int) ≤ 49 ∧
    (∃ b, trialLoop 49 (intSqrt 49) 2 = some b ∧ (b = true ↔ Nat.Prime (49 : Int).toNat)) ∧
    (∀ i : Int, 2 ≤ i → goRem 49 i = some (Int.tmod 49 i)) ∧
    (∀ sqrtNum i : Int, 2 ≤ i → trialLoop 49 sqrtNum i ≠ none) :=
  ⟨by decide, trialLoop_isPrime_iff 49 (by decide)⟩

/-- C9, as amended. For every `n ≥ 1` whose n-th prime is an `int`, `GetNthPrime n` computes
what the reference loop of the specification computes: if `p` is the result of the code, the
loop that advances the candidate after every test ends with candidate `p + 1`, and discarding
that last advance gives `p`. -/
theorem GetNthPrime_refines_reference (sz : IntSize) (n : Int) (hn : 1 ≤ n)
    (hfit : ((Nat.nth Nat.Prime (n.toNat - 1) : Nat) : Int) ≤ maxInt sz) :
    ∃ p : Int, GetNthPrime sz n = some p ∧
      alwaysIncrementLoop n ⟨0, 2⟩ = some (p + 1) ∧
      specNthPrime n = some p ∧
      GetNthPrime sz n = specNthPrime n := by
  have hcode := GetNthPrime_eq_nth sz n hn hfit
  have hloop := alwaysIncrementLoop_eq_nth n hn
  have hspec := specNthPrime_eq_nth n hn
  exact ⟨_, hcode, hloop, hspec, by rw [hcode, hspec]⟩

theorem GetNthPrime_refines_reference_witness :
    (1 : Int) ≤ 6 ∧
    ((Nat.nth Nat.Prime ((6 : Int).toNat - 1) : Nat) : Int) ≤ maxInt IntSize.bits64 ∧
    ∃ p : Int, GetNthPrime IntSize.bits64 6 = some p ∧
      alwaysIncrementLoop 6 ⟨0, 2⟩ = some (p + 1) ∧
      specNthPrime 6 = some p ∧
      GetNthPrime IntSize.bits64 6 = specNthPrime 6 :=
  ⟨by decide,
    nth_prime_fits IntSize.bits64 13 5 (by norm_num) (by decide) (by norm_num),
    GetNthPrime_refines_reference IntSize.bits64 6 (by decide)
      (nth_prime_fits IntSize.bits64 13 5 (by norm_num) (by decide) (by norm_num))⟩

/-- C9, as stated, fails on the largest 64-bit `int`: the reference loop of the specification
gives the prime of that index, which is above every `int`, and the code returns an `int` (or
nothing), so the two results differ. -/
theorem GetNthPrime_ne_reference_at_maxInt :
    (1 : Int) ≤ 9223372036854775807 ∧
    GetNthPrime IntSize.bits64 9223372036854775807 ≠ specNthPrime 9223372036854775807 := by
  refine ⟨by norm_num, ?_⟩
  intro heq
  rw [specNthPrime_eq_nth _ (by norm_num)] at heq
  have hr := (GetNthPrime_range IntSize.bits64 _ _ heq).2
  have hk := Nat.add_two_le_nth_prime ((9223372036854775807 : Int).toNat - 1)
  simp only [maxInt, IntSize.bits] at hr
  norm_num at hr
  omega

/-- C10, as amended. For every `n ≥ 1` such that the prime after the n-th one is an `int`,
`GetNthPrime (n + 1)` is the smallest prime strictly greater than `GetNthPrime n`;
`GetNthPrime` is strictly increasing on the indices from 1 to `n`; and
`GetNthPrime n ≥ n + 1`. -/
theorem GetNthPrime_succ_next_prime (sz : IntSize) (n : Int) (hn : 1 ≤ n)
    (hfit : ((Nat.nth Nat.Prime n.toNat : Nat) : Int) ≤ maxInt sz) :
    ∃ p q : Nat, GetNthPrime sz n = some (p : Int) ∧ GetNthPrime sz (n + 1) = some (q : Int) ∧
      Nat.Prime q ∧ p < q ∧ (∀ r : Nat, Nat.Prime r → p < r → q ≤ r) ∧
      n + 1 ≤ (p : Int) ∧
      (∀ m : Int, 1 ≤ m → m < n →
        ∃ p0 : Nat, GetNthPrime sz m = some (p0 : Int) ∧ p0 < p) := by
  have hinf := Nat.infinite_setOf_prime
  have hsucc : (n + 1).toNat - 1 = n.toNat := by omega
  have hmono : ∀ k, k ≤ n.toNat → ((Nat.nth Nat.Prime k : Nat) : Int) ≤ maxInt sz := by
    intro k hk
    have hle : Nat.nth Nat.Prime k ≤ Nat.nth Nat.Prime n.toNat :=
      (Nat.nth_strictMono hinf).monotone hk
    omega
  have hlt : Nat.nth Nat.Prime (n.toNat - 1) < Nat.nth Nat.Prime n.toNat :=
    (Nat.nth_lt_nth hinf).mpr (by omega)
  refine ⟨Nat.nth Nat.Prime (n.toNat - 1), Nat.nth Nat.Prime n.toNat,
    GetNthPrime_eq_nth sz n hn (hmono _ (by omega)), ?_, Nat.prime_nth_prime _, hlt, ?_, ?_, ?_⟩
  · have h := GetNthPrime_eq_nth sz (n + 1) (by omega) (by rw [hsucc]; exact hfit)
    rw [hsucc] at h
    exact h
  · intro r hr hpr
    rw [← Nat.nth_count hr] at hpr ⊢
    have hk := (Nat.nth_lt_nth hinf).mp hpr
    exact (Nat.nth_strictMono hinf).monotone (by omega)
  · have := Nat.add_two_le_nth_prime (n.toNat - 1)
    omega
  · intro m hm hmn
    refine ⟨Nat.nth Nat.Prime (m.toNat - 1),
      GetNthPrime_eq_nth sz m hm (hmono _ (by omega)), ?_⟩
    exact (Nat.nth_lt_nth hinf).mpr (by omega)

theorem GetNthPrime_succ_next_prime_witness :
    (1 : Int) ≤ 5 ∧
    ((Nat.nth Nat.Prime (5 : Int).toNat : Nat) : Int) ≤ maxInt IntSize.bits32 ∧
    ∃ p q : Nat, GetNthPrime IntSize.bits32 5 = some (p : Int) ∧
      GetNthPrime IntSize.bits32 (5 + 1) = some (q : Int) ∧
      Nat.Prime q ∧ p < q ∧ (∀ r : Nat, Nat.Prime r → p < r → q ≤ r) ∧
      (5 : Int) + 1 ≤ (p : Int) ∧
      (∀ m : Int, 1 ≤ m → m < 5 →
        ∃ p0 : Nat, GetNthPrime IntSize.bits32 m = some (p0 : Int) ∧ p0 < p) :=
  ⟨by decide,
    nth_prime_fits IntSize.bits32 13 5 (by norm_num) (by decide) (by norm_num),
    GetNthPrime_succ_next_prime IntSize.bits32 5 (by decide)
      (nth_prime_fits IntSize.bits32 13 5 (by norm_num) (by decide) (by norm_num))⟩

/-- C10, as stated, fails on the largest 64-bit `int`: `GetNthPrime n ≥ n + 1` cannot hold
there, because what `GetNthPrime` returns is an `int`. -/
theorem GetNthPrime_not_above_index_at_maxInt :
    (1 : Int) ≤ 9223372036854775807 ∧
    ¬ ∃ p : Int, GetNthPrime IntSize.bits64 9223372036854775807 = some p ∧
        9223372036854775807 + 1 ≤ p := by
  refine ⟨by norm_num, ?_⟩
  rintro ⟨p, hp, hge⟩
  have hr := (GetNthPrime_range IntSize.bits64 _ _ hp).2
  simp only [maxInt, IntSize.bits] at hr
  norm_num at hr
  omega

end GoLangTest
